import Mathlib

/-!
Verification of the CodeGraph analysis engine (src/engine/codegraph.py)
against its natural-language specification.

The Python source is shallowly embedded: the dependency graph of
`DependencyGraphAnalyzer` becomes explicit association lists (Python's
`defaultdict(set)` is modelled as an insertion-ordered, duplicate-free
successor list keyed in first-insertion order, matching the guaranteed
dict key order of CPython), the recursive `detect_cycles` DFS becomes a
fuel-indexed state-passing function, and the Python AST fragments used by
`PythonParser` become an inductive type.  The regex engine behind
`JavaScriptParser` is abstracted by its per-line match output.  The float
division in `_calculate_average_complexity` is modelled exactly: the
binary64 value of the quotient (correct rounding to 53 significant bits,
ties to even) is computed over the rationals, and Python's `round`
(half to even) is applied to it.
-/

namespace CodeGraph

abbrev Node := String

/-- Forward or reverse adjacency of `DependencyGraphAnalyzer`: an association
list keyed by node in first-insertion order; each value is the successor
collection modelled as an insertion-ordered duplicate-free list
(the Python code stores a `set`). -/
abbrev Adj := List (Node × List Node)

/-- `self.graph[source].add(target)` on a `defaultdict(set)`: if the key is
present, add the value to its collection (no duplicates); otherwise append a
fresh singleton entry at the end (dict keys keep insertion order). -/
def adjInsert (g : Adj) (s t : Node) : Adj :=
  match g with
  | [] => [(s, [t])]
  | (k, vs) :: rest =>
    if k = s then (k, if t ∈ vs then vs else vs ++ [t]) :: rest
    else (k, vs) :: adjInsert rest s t

/-- `self.graph[node]` read on a `defaultdict(set)`: missing keys give the
empty collection. -/
def adjGet (g : Adj) (n : Node) : List Node :=
  match g with
  | [] => []
  | (k, vs) :: rest => if k = n then vs else adjGet rest n

/-- The mutable state of a `DependencyGraphAnalyzer`: `self.graph` and
`self.reverse_graph`. -/
structure GraphState where
  graph : Adj
  reverseGraph : Adj
deriving DecidableEq

def emptyGraphState : GraphState := ⟨[], []⟩

/-- `DependencyGraphAnalyzer.add_dependency` (codegraph.py:638-641). -/
def addDependency (g : GraphState) (source target : Node) : GraphState :=
  ⟨adjInsert g.graph source target, adjInsert g.reverseGraph target source⟩

/-- `DependencyGraphAnalyzer.get_dependencies` (codegraph.py:679-681). -/
def getDependencies (g : GraphState) (n : Node) : List Node :=
  adjGet g.graph n

/-- `DependencyGraphAnalyzer.get_dependents` (codegraph.py:683-685). -/
def getDependents (g : GraphState) (n : Node) : List Node :=
  adjGet g.reverseGraph n

/-- Insert a sequence of edges into a fresh analyzer with `add_dependency`. -/
def buildGraph (edges : List (Node × Node)) : GraphState :=
  edges.foldl (fun g e => addDependency g e.1 e.2) emptyGraphState

/-- The mutable locals of `detect_cycles`: `visited` and the `cycles`
accumulator.  The recursion stack is not carried here because in the Python
code `rec_stack` always holds exactly the members of the current `path`
(`add`/`append` and `remove`/`pop` run in lockstep and both start empty). -/
structure DfsState where
  visited : List Node
  cycles : List (List Node)
deriving DecidableEq

/-- `path[path.index(node):]`: the suffix of `path` from the first occurrence
of `node` on. -/
def dropBefore (node : Node) : List Node → List Node
  | [] => []
  | x :: rest => if x = node then x :: rest else dropBefore node rest

/-- The inner `dfs(node, path)` closure of `detect_cycles`
(codegraph.py:649-671), state-passing and indexed by fuel; a fuel-exhausted
call returns the state unchanged (with the fuel chosen in `detectCycles`
this branch is never reached on the call tree that Python executes). -/
def dfsRun (g : Adj) : Nat → Node → List Node → DfsState → DfsState
  | 0, _, _, st => st
  | fuel + 1, node, path, st =>
    if node ∈ path then
      { st with cycles := st.cycles ++ [dropBefore node path ++ [node]] }
    else if node ∈ st.visited then st
    else
      (adjGet g node).foldl
        (fun s nb => dfsRun g fuel nb (path ++ [node]) s)
        { st with visited := st.visited ++ [node] }

/-- An upper bound on the number of distinct nodes mentioned in the graph,
used as DFS fuel. -/
def graphNodeCount (g : Adj) : Nat :=
  g.length + (g.map (fun p => p.2.length)).sum

/-- `DependencyGraphAnalyzer.detect_cycles` (codegraph.py:643-677): run the
DFS from every key of `self.graph` in key (insertion) order, skipping
already-visited roots, and return the accumulated cycle list. -/
def detectCycles (g : Adj) : List (List Node) :=
  ((g.map Prod.fst).foldl
    (fun st root =>
      if root ∈ st.visited then st
      else dfsRun g (graphNodeCount g + 1) root [] st)
    ⟨[], []⟩).cycles

/-- `CircularDependency` records as built in `analyze_project`
(codegraph.py:738-741): severity is `error` when the recorded walk has more
than 5 entries, else `warning`. -/
structure CircularDependency where
  cycle : List Node
  severity : String
deriving DecidableEq

def mkCircularDependency (c : List Node) : CircularDependency :=
  ⟨c, if 5 < c.length then "error" else "warning"⟩

/-- Rotation of a list by `i` positions, used to compare cycles up to the
choice of starting node. -/
def rotate (l : List Node) (i : Nat) : List Node :=
  l.drop i ++ l.take i

def isRotationOf (l₁ l₂ : List Node) : Bool :=
  (List.range (l₁.length + 1)).any (fun i => rotate l₁ i == l₂)

/-- Two recorded closed walks denote the same cycle up to rotation of the
starting node: dropping the repeated closing entry, one is a rotation of the
other. -/
def cycleEquiv (c₁ c₂ : List Node) : Bool :=
  isRotationOf c₁.dropLast c₂.dropLast

/-- The two runs produced the same set of cycles, comparing cycles up to
rotation of the starting node. -/
def sameCycleSet (cs₁ cs₂ : List (List Node)) : Bool :=
  cs₁.all (fun c => cs₂.any (cycleEquiv c)) && cs₂.all (fun c => cs₁.any (cycleEquiv c))

/-- The fragment of the Python abstract syntax tree that `PythonParser`
inspects.  `funcDef` covers both `ast.FunctionDef` (`isAsync = false`) and
`ast.AsyncFunctionDef` (`isAsync = true`); `call` carries `some id` exactly
when `node.func` is an `ast.Name` (the `hasattr(node.func, 'id')` test);
`importStmt` is `ast.Import` with one entry per alias, `importFromStmt` is
`ast.ImportFrom` whose `module` may be absent (relative import
`from . import x`); every other node kind is `other`, keeping only its
children.  Child lists stand for all child nodes reached by `ast.walk`. -/
inductive PyNode where
  | funcDef (name : String) (isAsync : Bool) (line : Nat) (body : List PyNode)
  | classDef (name : String) (body : List PyNode)
  | forLoop (body : List PyNode)
  | whileLoop (body : List PyNode)
  | call (funcId : Option String) (args : List PyNode)
  | importStmt (names : List String) (line : Nat) (col : Nat)
  | importFromStmt (module : Option String) (names : List String) (line : Nat) (col : Nat)
  | other (children : List PyNode)

mutual
/-- `ast.walk(node)`: the node itself and all of its descendants.  The Python
generator yields them breadth-first; this embedding lists them depth-first,
which is interchangeable here because every use either counts matching nodes
or concatenates the per-node output of statements that do not nest. -/
def walk : PyNode → List PyNode
  | .funcDef name isAsync line body => .funcDef name isAsync line body :: walkList body
  | .classDef name body => .classDef name body :: walkList body
  | .forLoop body => .forLoop body :: walkList body
  | .whileLoop body => .whileLoop body :: walkList body
  | .call funcId args => .call funcId args :: walkList args
  | .importStmt names line col => [.importStmt names line col]
  | .importFromStmt module names line col => [.importFromStmt module names line col]
  | .other children => .other children :: walkList children

def walkList : List PyNode → List PyNode
  | [] => []
  | n :: rest => walk n ++ walkList rest
end

/-- A `DependencyInfo` record (codegraph.py:21-28). -/
structure DependencyInfo where
  source : String
  target : String
  type : String
  line : Nat
  column : Nat
deriving DecidableEq

/-- A `ComplexityInfo` record (codegraph.py:31-38). -/
structure ComplexityInfo where
  function : String
  file : String
  complexity : String
  line : Nat
  warning : Option String
deriving DecidableEq

/-- The quadratic class label.  In the source snapshot the literal is the
mojibake rendering of this string; it is used consistently throughout
codegraph.py, so one fixed label models it. -/
def oN2 : String := "O(n²)"

/-- `PythonParser._extract_dependencies` (codegraph.py:117-142): walk the
tree; an `ast.Import` appends one record per alias with the alias name as
target; an `ast.ImportFrom` appends one record per alias with target
`module.name`, but only when `node.module` is set. -/
def extractDependencies (tree : PyNode) (file : String) : List DependencyInfo :=
  (walk tree).foldl
    (fun acc node =>
      match node with
      | .importStmt names line col =>
        names.foldl (fun acc2 nm => acc2 ++ [⟨file, nm, "import", line, col⟩]) acc
      | .importFromStmt module names line col =>
        match module with
        | some m =>
          names.foldl (fun acc2 nm => acc2 ++ [⟨file, m ++ "." ++ nm, "import", line, col⟩]) acc
        | none => acc
      | _ => acc)
    []

def isLoopNode : PyNode → Bool
  | .forLoop _ => true
  | .whileLoop _ => true
  | _ => false

/-- The child statements of a loop node (empty for non-loops). -/
def loopBodyOf : PyNode → List PyNode
  | .forLoop body => body
  | .whileLoop body => body
  | _ => []

/-- The number of `ast.For`/`ast.While` nodes in `ast.walk(n)`, counting `n`
itself when it is a loop: the `loops` counter of `_estimate_complexity`. -/
def loopCount (n : PyNode) : Nat :=
  ((walk n).filter isLoopNode).length

/-- The `nested_loops` counter of `_estimate_complexity`
(codegraph.py:176-179): for every loop node, every loop strictly inside it
(`child != node`) contributes one. -/
def nestedLoopCount (f : PyNode) : Nat :=
  ((walk f).filter isLoopNode).foldl (fun acc n => acc + (loopCount n - 1)) 0

def isSelfCallTo (name : String) : PyNode → Bool
  | .call (some id) _ => id == name
  | _ => false

/-- The `recursive_calls` counter of `_estimate_complexity`
(codegraph.py:180-183): calls through a plain name equal to the function's
own name, counted only when the analyzed node is a (non-async)
`ast.FunctionDef` — the `isinstance(func_node, ast.FunctionDef)` test fails
for `ast.AsyncFunctionDef`. -/
def recursiveCallCount (f : PyNode) : Nat :=
  match f with
  | .funcDef name isAsync _ _ =>
    if isAsync then 0
    else ((walk f).filter (isSelfCallTo name)).length
  | _ => 0

/-- `PythonParser._estimate_complexity` (codegraph.py:166-193). -/
def estimateComplexity (f : PyNode) : String :=
  if 0 < recursiveCallCount f then "O(2^n)"
  else if 0 < nestedLoopCount f then oN2
  else if 0 < loopCount f then "O(n)"
  else "O(1)"

/-- `PythonParser._is_high_complexity` (codegraph.py:195-198). -/
def isHighComplexity (c : String) : Bool :=
  c == oN2 || c == "O(2^n)" || c == "O(n!)"

/-- The warning attached in `_analyze_complexity` (codegraph.py:151-154). -/
def warningFor (c : String) : Option String :=
  if isHighComplexity c then some ("Consider optimizing - complexity is " ++ c) else none

/-- `PythonParser._analyze_complexity` (codegraph.py:144-164): one record per
`ast.FunctionDef`/`ast.AsyncFunctionDef` in the walk of the tree. -/
def analyzeComplexity (tree : PyNode) (file : String) : List ComplexityInfo :=
  (walk tree).foldl
    (fun acc node =>
      match node with
      | .funcDef name isAsync line body =>
        let c := estimateComplexity (.funcDef name isAsync line body)
        acc ++ [⟨name, file, c, line, warningFor c⟩]
      | _ => acc)
    []

/-- `PythonParser._extract_functions` (codegraph.py:200-206). -/
def extractFunctions (tree : PyNode) : List String :=
  (walk tree).foldl
    (fun acc node =>
      match node with
      | .funcDef name _ _ _ => acc ++ [name]
      | _ => acc)
    []

/-- `PythonParser._extract_imports` (codegraph.py:208-218): module names,
one per alias for `ast.Import`, one per statement for `ast.ImportFrom` with
a module. -/
def extractImports (tree : PyNode) : List String :=
  (walk tree).foldl
    (fun acc node =>
      match node with
      | .importStmt names _ _ => acc ++ names
      | .importFromStmt module _ _ _ =>
        match module with
        | some m => acc ++ [m]
        | none => acc
      | _ => acc)
    []

/-- `PythonParser._extract_classes` (codegraph.py:220-226). -/
def extractClasses (tree : PyNode) : List String :=
  (walk tree).foldl
    (fun acc node =>
      match node with
      | .classDef name _ => acc ++ [name]
      | _ => acc)
    []

/-- The dictionary returned by `PythonParser.parse` (codegraph.py:100-106). -/
structure FileAnalysis where
  dependencies : List DependencyInfo
  complexity : List ComplexityInfo
  functions : List String
  imports : List String
  classes : List String
deriving DecidableEq

def emptyFileAnalysis : FileAnalysis := ⟨[], [], [], [], []⟩

/-- `PythonParser.parse` (codegraph.py:88-115).  Reading, decoding and
parsing the file are summarized by an `Except` input: `.ok tree` when
`ast.parse` succeeded, `.error e` for any raised exception.  The `except`
branch returns the all-empty dictionary; the printed message is modelled as
the second component (the recoverable diagnostic). -/
def parsePy (file : String) (input : Except String PyNode) : FileAnalysis × Option String :=
  match input with
  | .ok tree =>
    (⟨extractDependencies tree file, analyzeComplexity tree file, extractFunctions tree,
      extractImports tree, extractClasses tree⟩, none)
  | .error e => (emptyFileAnalysis, some ("Error parsing " ++ file ++ ": " ++ e))

/-- `JavaScriptParser._extract_dependencies` (codegraph.py:262-287), with the
`re` library abstracted behind its output: the input supplies, for each line
of the file in order, the list of (captured module string, match start
column) pairs that `re.finditer` yields for the four import patterns
(`import … from '…'`, `import '…'`, `require('…')`, `import('…')`),
concatenated in pattern order.  The loop then appends one record per match
with the 1-based line number and the match's start column — one edge per
import-like match, never per bound name: `re.finditer` matches
`const {a, b} = require('m')` once (capturing `m`), although the statement
binds two names, and matches the bare side-effect import `import 'p'` once
although it binds none. -/
def jsExtractDependencies (file : String) (lineMatches : List (List (String × Nat))) :
    List DependencyInfo :=
  (List.enumFrom 1 lineMatches).foldl
    (fun acc p =>
      p.2.foldl (fun acc2 m => acc2 ++ [⟨file, m.1, "import", p.1, m.2⟩]) acc)
    []

/-- `ProjectMetrics` (codegraph.py:48-55). -/
structure ProjectMetrics where
  totalFiles : Nat
  totalFunctions : Nat
  averageComplexity : String
  dependencyCount : Nat
  circularDependencies : Nat
deriving DecidableEq

/-- `AnalysisResult` (codegraph.py:58-64). -/
structure AnalysisResult where
  dependencies : List DependencyInfo
  complexity : List ComplexityInfo
  cycles : List CircularDependency
  metrics : ProjectMetrics
deriving DecidableEq

/-- The score table of `_calculate_average_complexity` (codegraph.py:794-804):
`complexity_scores.get(comp.complexity, 3)`. -/
def complexityScore (c : String) : Nat :=
  if c = "O(1)" then 1
  else if c = "O(log n)" then 2
  else if c = "O(n)" then 3
  else if c = "O(n log n)" then 4
  else if c = oN2 then 5
  else if c = "O(2^n)" then 6
  else if c = "O(n!)" then 7
  else 3

/-- `score_to_complexity.get(round(avg_score), "O(n)")` (codegraph.py:808-813). -/
def scoreToComplexity (s : Int) : String :=
  if s = 1 then "O(1)"
  else if s = 2 then "O(log n)"
  else if s = 3 then "O(n)"
  else if s = 4 then "O(n log n)"
  else if s = 5 then oN2
  else if s = 6 then "O(2^n)"
  else if s = 7 then "O(n!)"
  else "O(n)"

/-- Python's builtin `round`: round to the nearest integer, ties to the even
integer (banker's rounding). -/
def pythonRound (q : ℚ) : Int :=
  if Int.fract q < 1 / 2 then ⌊q⌋
  else if 1 / 2 < Int.fract q then ⌊q⌋ + 1
  else if ⌊q⌋ % 2 = 0 then ⌊q⌋ else ⌊q⌋ + 1

/-- The IEEE-754 binary64 double nearest to a rational (round to nearest,
ties to even significand), for magnitudes in the normal range: a nonzero
`q` with binade exponent `e = Int.log 2 q` is scaled to a significand in
`[2^52, 2^53)`, rounded half-to-even to an integer, and scaled back.
Overflow and subnormals are irrelevant here: the program only divides
total scores by list lengths, whose quotients lie in `[1, 7]`.  CPython's
`int / int` true division returns exactly this correctly rounded double. -/
def floatOfRat (q : ℚ) : ℚ :=
  if q = 0 then 0
  else if 0 < q then
    (pythonRound (q * (2 : ℚ) ^ ((52 : ℤ) - Int.log 2 q)) : ℚ) *
      (2 : ℚ) ^ (Int.log 2 q - (52 : ℤ))
  else
    -((pythonRound ((-q) * (2 : ℚ) ^ ((52 : ℤ) - Int.log 2 (-q))) : ℚ) *
      (2 : ℚ) ^ (Int.log 2 (-q) - (52 : ℤ)))

/-- `CodeGraphAnalyzer._calculate_average_complexity` (codegraph.py:788-813).
`total_score` and `len(complexity_info)` are exact Python ints; the division
`total_score / len(complexity_info)` produces the correctly rounded binary64
double of the exact quotient, and `round` is applied to that double. -/
def calculateAverageComplexity (l : List ComplexityInfo) : String :=
  match l with
  | [] => "O(1)"
  | _ =>
    let total : Nat := (l.map (fun c => complexityScore c.complexity)).sum
    scoreToComplexity (pythonRound (floatOfRat ((total : ℚ) / (l.length : ℚ))))

/-- `CodeGraphAnalyzer.analyze_project` (codegraph.py:699-757) restricted to
the Python files of the scan, with the analyzer's persistent
`self.dependency_analyzer` made explicit: the graph state `st` is the one the
instance holds when the call starts, and the returned state is what the
instance holds afterwards (`analyze_project` never resets it).  Each input
pairs a file path with the outcome of reading and parsing that file. -/
def analyzeProjectFrom (st : GraphState) (files : List (String × Except String PyNode)) :
    GraphState × AnalysisResult :=
  let parsed := files.map (fun fp => parsePy fp.1 fp.2)
  let allDeps := parsed.flatMap (fun p => p.1.dependencies)
  let allComplexity := parsed.flatMap (fun p => p.1.complexity)
  let allFunctions := parsed.flatMap (fun p => p.1.functions)
  let st2 := allDeps.foldl (fun g d => addDependency g d.source d.target) st
  let circular := (detectCycles st2.graph).map mkCircularDependency
  let metrics : ProjectMetrics :=
    ⟨files.length, allFunctions.length, calculateAverageComplexity allComplexity,
      allDeps.length, circular.length⟩
  (st2, ⟨allDeps, allComplexity, circular, metrics⟩)

/-! Spec-side definitions.  The following definitions restate, in the
spec's own vocabulary, the properties the claims assert; the theorems below
compare them with the code-side definitions above. -/

/-- Spec: the function "calls itself by its own name" — some call through a
plain name equal to the function's name occurs anywhere in its body
(regardless of whether the function is asynchronous). -/
def specCallsItself (f : PyNode) : Bool :=
  match f with
  | .funcDef name _ _ _ => (walk f).any (isSelfCallTo name)
  | _ => false

/-- Spec: "two lexically nested loops" — some loop construct has another
loop construct strictly inside its subtree. -/
def specHasNestedLoops (f : PyNode) : Bool :=
  (walk f).any (fun n =>
    match n with
    | .forLoop body => (walkList body).any isLoopNode
    | .whileLoop body => (walkList body).any isLoopNode
    | _ => false)

/-- Spec: "at least one loop construct present". -/
def specHasLoop (f : PyNode) : Bool :=
  (walk f).any isLoopNode

/-- The complexity class the amended claim C1 assigns to a function
definition: self-recursion (detected only for non-async definitions) takes
precedence, then nested loops, then a single loop, else constant. -/
def specComplexityClass (f : PyNode) : String :=
  match f with
  | .funcDef _ isAsync _ _ =>
    if !isAsync && specCallsItself f then "O(2^n)"
    else if specHasNestedLoops f then oN2
    else if specHasLoop f then "O(n)"
    else "O(1)"
  | _ => "O(1)"

/-- Spec: the per-statement dependency-edge rule as amended — an import
statement yields one edge per bound name with the statement's line and
column; a from-import qualifies targets as `module.name`; a from-import with
no module (relative `from . import x`) yields no edges. -/
def specEdgesOfStatement (file : String) (n : PyNode) : List DependencyInfo :=
  match n with
  | .importStmt names line col => names.map (fun nm => ⟨file, nm, "import", line, col⟩)
  | .importFromStmt (some m) names line col =>
    names.map (fun nm => ⟨file, m ++ "." ++ nm, "import", line, col⟩)
  | _ => []

/-- Spec: the number of names bound by the import statements of a tree (one
per alias of a plain import, one per alias of a from-import). -/
def specBoundImportNames (tree : PyNode) : Nat :=
  ((walk tree).map (fun n =>
    match n with
    | .importStmt names _ _ => names.length
    | .importFromStmt _ names _ _ => names.length
    | _ => 0)).sum

/-- Spec: the ordered table of the seven complexity classes. -/
def specClassTable : List String :=
  ["O(1)", "O(log n)", "O(n)", "O(n log n)", oN2, "O(2^n)", "O(n!)"]

/-- One-based position of a label in a table, if present. -/
def rankIn : List String → String → Option Nat
  | [], _ => none
  | s :: rest, c => if c = s then some 1 else (rankIn rest c).map (· + 1)

/-- Spec: "the ordinal rank (1..7)" of a complexity label, "an unrecognized
label defaults to rank 3". -/
def specRank (c : String) : Nat :=
  (rankIn specClassTable c).getD 3

/-- Spec: map a rounded rank "back to the nearest class label"; a rank
outside the table falls back to the conservative default `O(n)` (mirroring
the dictionary default of the source). -/
def specMapBack (s : Int) : String :=
  if 1 ≤ s ∧ s ≤ 7 then (specClassTable.get? (s - 1).toNat).getD "O(n)"
  else "O(n)"

/-- Spec: `average_complexity_class` — round-to-nearest-integer (Python's
`round`, ties to even) of the mean ordinal rank, mapped back to the class
table. -/
def specAverageComplexity (l : List ComplexityInfo) : String :=
  specMapBack (pythonRound
    (((l.map (fun r => ((specRank r.complexity : ℚ)))).sum) / (l.length : ℚ)))

/-! Theorems.  Helper lemmas come first, then one theorem per claim with its
witness or counterexample. -/

theorem mem_adjGet_adjInsert_self (g : Adj) (s t : Node) :
    t ∈ adjGet (adjInsert g s t) s := by
  induction g with
  | nil => simp [adjInsert, adjGet]
  | cons p rest ih =>
    obtain ⟨k, vs⟩ := p
    by_cases hk : k = s
    · subst hk
      by_cases ht : t ∈ vs <;> simp [adjInsert, adjGet, ht]
    · simpa [adjInsert, adjGet, hk] using ih

theorem adjGet_adjInsert_ne (g : Adj) (s t n : Node) (h : s ≠ n) :
    adjGet (adjInsert g s t) n = adjGet g n := by
  induction g with
  | nil => simp [adjInsert, adjGet, h]
  | cons p rest ih =>
    obtain ⟨k, vs⟩ := p
    by_cases hk : k = s
    · subst hk
      simp [adjInsert, adjGet, h]
    · by_cases hkn : k = n
      · subst hkn
        simp [adjInsert, adjGet, hk]
      · simp [adjInsert, adjGet, hk, hkn, ih]

theorem mem_adjGet_adjInsert_iff (g : Adj) (s t n x : Node) :
    x ∈ adjGet (adjInsert g s t) n ↔ (n = s ∧ x = t) ∨ x ∈ adjGet g n := by
  induction g with
  | nil =>
    by_cases hn : n = s
    · subst hn
      simp [adjInsert, adjGet]
    · simp [adjInsert, adjGet, Ne.symm hn, hn]
  | cons p rest ih =>
    obtain ⟨k, vs⟩ := p
    by_cases hk : k = s
    · subst hk
      by_cases hn : n = k
      · subst hn
        by_cases hv : t ∈ vs
        · simp [adjInsert, adjGet, hv]
          intro h
          subst h
          exact hv
        · simp [adjInsert, adjGet, hv, List.mem_append]
          tauto
      · simp [adjInsert, adjGet, Ne.symm hn, hn]
    · by_cases hn : n = k
      · subst hn
        simp [adjInsert, adjGet, hk, Ne.symm hk]
      · simp only [adjInsert, if_neg hk, adjGet, if_neg (Ne.symm hn)]
        exact ih

end CodeGraph



namespace CodeGraph

theorem getDependencies_foldl_not_source (edges : List (Node × Node)) :
    ∀ (st : GraphState) (n : Node), n ∉ edges.map Prod.fst →
      getDependencies (edges.foldl (fun g e => addDependency g e.1 e.2) st) n =
        getDependencies st n := by
  induction edges with
  | nil => intro st n _; rfl
  | cons e rest ih =>
    intro st n hn
    simp only [List.map_cons, List.mem_cons] at hn
    push_neg at hn
    simp only [List.foldl_cons]
    rw [ih _ n hn.2]
    exact adjGet_adjInsert_ne _ _ _ _ (fun h => hn.1 h.symm)

theorem getDependents_foldl_not_target (edges : List (Node × Node)) :
    ∀ (st : GraphState) (n : Node), n ∉ edges.map Prod.snd →
      getDependents (edges.foldl (fun g e => addDependency g e.1 e.2) st) n =
        getDependents st n := by
  induction edges with
  | nil => intro st n _; rfl
  | cons e rest ih =>
    intro st n hn
    simp only [List.map_cons, List.mem_cons] at hn
    push_neg at hn
    simp only [List.foldl_cons]
    rw [ih _ n hn.2]
    exact adjGet_adjInsert_ne _ _ _ _ (fun h => hn.1 h.symm)

theorem mem_getDependencies_foldl_iff (edges : List (Node × Node)) :
    ∀ (st : GraphState) (s t : Node),
      t ∈ getDependencies (edges.foldl (fun g e => addDependency g e.1 e.2) st) s ↔
        (s, t) ∈ edges ∨ t ∈ getDependencies st s := by
  induction edges with
  | nil => intro st s t; simp
  | cons e rest ih =>
    obtain ⟨e1, e2⟩ := e
    intro st s t
    simp only [List.foldl_cons, List.mem_cons]
    rw [ih]
    unfold getDependencies addDependency
    rw [mem_adjGet_adjInsert_iff]
    constructor
    · rintro (h | (⟨rfl, rfl⟩ | h))
      · exact Or.inl (Or.inr h)
      · exact Or.inl (Or.inl rfl)
      · exact Or.inr h
    · rintro ((h | h) | h)
      · rw [Prod.mk.injEq] at h
        exact Or.inr (Or.inl ⟨h.1, h.2⟩)
      · exact Or.inl h
      · exact Or.inr (Or.inr h)

/-- Claim C3: after `add_dependency(a, b)`, whatever the prior insertions,
`get_dependencies(a)` (the successors of `a`) contains `b` and
`get_dependents(b)` (the predecessors of `b`) contains `a`; `g` ranges over
every reachable and unreachable analyzer state, so this covers any prior
insertion sequence and the self-loop case `a = b`. -/
theorem add_dependency_successors_predecessors (g : GraphState) (a b : Node) :
    b ∈ getDependencies (addDependency g a b) a ∧
      a ∈ getDependents (addDependency g a b) b :=
  ⟨mem_adjGet_adjInsert_self g.graph a b, mem_adjGet_adjInsert_self g.reverseGraph b a⟩

/-- Claim C10: a node never used as a source has no recorded dependencies and
a node never used as a target has no recorded dependents; the lookups are
total functions of the built graph (the `defaultdict` read never raises). -/
theorem unknown_node_queries_empty (edges : List (Node × Node)) (n m : Node)
    (hn : n ∉ edges.map Prod.fst) (hm : m ∉ edges.map Prod.snd) :
    getDependencies (buildGraph edges) n = [] ∧ getDependents (buildGraph edges) m = [] := by
  constructor
  · rw [buildGraph, getDependencies_foldl_not_source edges emptyGraphState n hn]
    rfl
  · rw [buildGraph, getDependents_foldl_not_target edges emptyGraphState m hm]
    rfl

/-- Witness for C10 at a concrete graph: `C` occurs in `[(A, B)]` neither as
a source nor as a target. -/
theorem unknown_node_queries_empty_witness :
    getDependencies (buildGraph [("A", "B")]) "C" = [] ∧
      getDependents (buildGraph [("A", "B")]) "C" = [] :=
  unknown_node_queries_empty [("A", "B")] "C" "C" (by decide) (by decide)

/-- Claim C2: the triangle `A→B, B→C, C→A` yields at least one cycle whose
node set is exactly `{A, B, C}`, and the acyclic chain `A→B, B→C` yields no
cycle at all. -/
theorem triangle_and_chain_cycles :
    ((detectCycles (buildGraph [("A", "B"), ("B", "C"), ("C", "A")]).graph).any
        (fun c => c.all (· ∈ ["A", "B", "C"]) && ["A", "B", "C"].all (· ∈ c)) = true) ∧
      detectCycles (buildGraph [("A", "B"), ("B", "C")]).graph = [] := by
  constructor
  · decide
  · decide

end CodeGraph

namespace CodeGraph

/-- Counterexample for C7 as stated: the two edge lists are permutations of
one another (the same multiset of edges), yet the two runs do not produce the
same set of cycles even up to rotation — the first run reports only the
3-cycle `A→B→C→A`, the second also reports the 4-cycle `A→B→D→C→A`, because
the insertion order determines the dict key order of `self.graph` and hence
the DFS root order.  In both lists `B`'s successors are inserted in the
same relative order (`C` before `D`), so the difference does not depend on
the modelling of set iteration order. -/
theorem cycle_insertion_order_counterexample :
    List.Perm [("A", "B"), ("B", "C"), ("B", "D"), ("C", "A"), ("D", "C")]
      [("D", "C"), ("A", "B"), ("B", "C"), ("B", "D"), ("C", "A")] ∧
    sameCycleSet
      (detectCycles (buildGraph
        [("A", "B"), ("B", "C"), ("B", "D"), ("C", "A"), ("D", "C")]).graph)
      (detectCycles (buildGraph
        [("D", "C"), ("A", "B"), ("B", "C"), ("B", "D"), ("C", "A")]).graph) = false :=
  ⟨by decide, by decide⟩

/-- Claim C7 amended: what insertion-order invariance the code does provide.
Any two insertion orders of the same edge multiset build graphs with the same
edge membership (`successors` agree as sets), and `detect_cycles` is a
deterministic function of the built adjacency structure: whenever two
insertion sequences produce the same adjacency representation (same key
order, same successor order), they yield identical cycle lists.  The cycle
*set* itself, up to rotation, is not insertion-order invariant (see the
counterexample). -/
theorem cycle_insertion_order_amended :
    (∀ es₁ es₂ : List (Node × Node), es₁.Perm es₂ → ∀ s t : Node,
        (t ∈ getDependencies (buildGraph es₁) s ↔ t ∈ getDependencies (buildGraph es₂) s)) ∧
    (∀ es₁ es₂ : List (Node × Node), buildGraph es₁ = buildGraph es₂ →
        detectCycles (buildGraph es₁).graph = detectCycles (buildGraph es₂).graph) := by
  constructor
  · intro es₁ es₂ hperm s t
    rw [buildGraph, buildGraph, mem_getDependencies_foldl_iff, mem_getDependencies_foldl_iff]
    rw [hperm.mem_iff]
  · intro es₁ es₂ h
    rw [h]

/-- Witness for C7 amended at concrete inputs: a transposed edge list keeps
successor membership, and inserting a duplicate edge builds the same graph
representation, hence the same cycles. -/
theorem cycle_insertion_order_amended_witness :
    (("B" : Node) ∈ getDependencies (buildGraph [("A", "B"), ("B", "C")]) "A" ↔
      ("B" : Node) ∈ getDependencies (buildGraph [("B", "C"), ("A", "B")]) "A") ∧
    detectCycles (buildGraph [("A", "B"), ("A", "B")]).graph =
      detectCycles (buildGraph [("A", "B")]).graph :=
  ⟨cycle_insertion_order_amended.1 [("A", "B"), ("B", "C")] [("B", "C"), ("A", "B")]
      (by decide) "A" "B",
    cycle_insertion_order_amended.2 [("A", "B"), ("A", "B")] [("A", "B")] (by decide)⟩

/-- Counterexample for C6 as stated, refuting the per-bound-name rule for
both cited extractors.  Python: the relative import `from . import x` (an
`ast.ImportFrom` whose `module` is `None`) is an import statement binding
one name, yet `_extract_dependencies` emits no edge for it.  JavaScript: on
the one-line file `const {a, b} = require('m');`, `re.finditer` yields
exactly one match of the require pattern — capturing `m` at column 15 — so
the extractor emits exactly one edge although the statement binds the two
names `a` and `b`. -/
theorem import_edges_counterexample :
    ((extractDependencies (.other [.importFromStmt none ["x"] 3 0]) "f.py").length = 0 ∧
      specBoundImportNames (.other [.importFromStmt none ["x"] 3 0]) = 1) ∧
    ((jsExtractDependencies "f.js" [[("m", 15)]]).length = 1 ∧ (1 : Nat) ≠ 2) :=
  ⟨⟨by decide, by decide⟩, ⟨by decide, by decide⟩⟩

theorem foldl_append_map {α β : Type} (f : α → β) :
    ∀ (l : List α) (acc : List β), l.foldl (fun a x => a ++ [f x]) acc = acc ++ l.map f := by
  intro l
  induction l with
  | nil => intro acc; simp
  | cons x rest ih =>
    intro acc
    simp only [List.foldl_cons, List.map_cons]
    rw [ih]
    simp

theorem extractDependencies_foldl (file : String) (nodes : List PyNode) :
    ∀ acc : List DependencyInfo,
      nodes.foldl
        (fun acc node =>
          match node with
          | .importStmt names line col =>
            names.foldl (fun acc2 nm => acc2 ++ [⟨file, nm, "import", line, col⟩]) acc
          | .importFromStmt module names line col =>
            match module with
            | some m =>
              names.foldl (fun acc2 nm => acc2 ++ [⟨file, m ++ "." ++ nm, "import", line, col⟩]) acc
            | none => acc
          | _ => acc)
        acc
      = acc ++ nodes.flatMap (specEdgesOfStatement file) := by
  induction nodes with
  | nil => intro acc; simp
  | cons node rest ih =>
    intro acc
    simp only [List.foldl_cons, List.flatMap_cons]
    match node with
    | .importStmt names line col =>
      dsimp only
      rw [foldl_append_map (fun nm => (⟨file, nm, "import", line, col⟩ : DependencyInfo)), ih]
      simp [specEdgesOfStatement]
    | .importFromStmt (some m) names line col =>
      dsimp only
      rw [foldl_append_map
        (fun nm => (⟨file, m ++ "." ++ nm, "import", line, col⟩ : DependencyInfo)), ih]
      simp [specEdgesOfStatement]
    | .importFromStmt none names line col => dsimp only; rw [ih]; simp [specEdgesOfStatement]
    | .funcDef name isAsync line body => dsimp only; rw [ih]; simp [specEdgesOfStatement]
    | .classDef name body => dsimp only; rw [ih]; simp [specEdgesOfStatement]
    | .forLoop body => dsimp only; rw [ih]; simp [specEdgesOfStatement]
    | .whileLoop body => dsimp only; rw [ih]; simp [specEdgesOfStatement]
    | .call funcId args => dsimp only; rw [ih]; simp [specEdgesOfStatement]
    | .other children => dsimp only; rw [ih]; simp [specEdgesOfStatement]

theorem jsExtractDependencies_foldl (file : String) :
    ∀ (rows : List (Nat × List (String × Nat))) (acc : List DependencyInfo),
      rows.foldl
        (fun acc p =>
          p.2.foldl (fun acc2 m => acc2 ++ [⟨file, m.1, "import", p.1, m.2⟩]) acc)
        acc
      = acc ++ rows.flatMap
          (fun p => p.2.map (fun m => (⟨file, m.1, "import", p.1, m.2⟩ : DependencyInfo))) := by
  intro rows
  induction rows with
  | nil => intro acc; simp
  | cons row rest ih =>
    obtain ⟨ln, ms⟩ := row
    intro acc
    simp only [List.foldl_cons, List.flatMap_cons]
    rw [foldl_append_map
      (fun m : String × Nat => (⟨file, m.1, "import", ln, m.2⟩ : DependencyInfo)), ih]
    simp

/-- Claim C6 amended: per-statement dependency extraction.  Python
(structural extractor): the extracted edge list is exactly the
concatenation, over the walked statements, of the per-statement edges — a
plain import contributes one edge per bound name with the alias as target;
a from-import with a module contributes one edge per bound name with target
`module.name`; a from-import with no module (relative `from . import x`)
contributes no edge; every edge carries the statement's line and column and
the file as source.  JavaScript (pattern-based extractor): the edge list is
exactly one edge per regex match, in line order, carrying the 1-based line
number and the match's start column — the edge count equals the match
count, not the bound-name count (a destructured require binding two names
yields one edge; a bare side-effect import binding none yields one). -/
theorem import_edges_amended :
    (∀ (tree : PyNode) (file : String),
      extractDependencies tree file = (walk tree).flatMap (specEdgesOfStatement file)) ∧
    (∀ (file : String) (names : List String) (line col : Nat),
      (specEdgesOfStatement file (.importStmt names line col)).length = names.length ∧
      ∀ e ∈ specEdgesOfStatement file (.importStmt names line col),
        e.source = file ∧ e.line = line ∧ e.column = col) ∧
    (∀ (file m : String) (names : List String) (line col : Nat),
      (specEdgesOfStatement file (.importFromStmt (some m) names line col)).length
        = names.length ∧
      ∀ e ∈ specEdgesOfStatement file (.importFromStmt (some m) names line col),
        e.source = file ∧ e.line = line ∧ e.column = col) ∧
    (∀ (file : String) (names : List String) (line col : Nat),
      specEdgesOfStatement file (.importFromStmt none names line col) = []) ∧
    (∀ (file : String) (lineMatches : List (List (String × Nat))),
      jsExtractDependencies file lineMatches
        = (List.enumFrom 1 lineMatches).flatMap
            (fun p => p.2.map (fun m => (⟨file, m.1, "import", p.1, m.2⟩ : DependencyInfo))) ∧
      (jsExtractDependencies file lineMatches).length = (lineMatches.map List.length).sum) := by
  refine ⟨?_, ?_, ?_, ?_, ?_⟩
  · intro tree file
    unfold extractDependencies
    rw [extractDependencies_foldl]
    simp
  · intro file names line col
    constructor
    · simp [specEdgesOfStatement]
    · intro e he
      simp only [specEdgesOfStatement, List.mem_map] at he
      obtain ⟨nm, -, rfl⟩ := he
      exact ⟨rfl, rfl, rfl⟩
  · intro file m names line col
    constructor
    · simp [specEdgesOfStatement]
    · intro e he
      simp only [specEdgesOfStatement, List.mem_map] at he
      obtain ⟨nm, -, rfl⟩ := he
      exact ⟨rfl, rfl, rfl⟩
  · intro file names line col
    rfl
  · intro file lineMatches
    have hchar : jsExtractDependencies file lineMatches
        = (List.enumFrom 1 lineMatches).flatMap
            (fun p => p.2.map (fun m => (⟨file, m.1, "import", p.1, m.2⟩ : DependencyInfo))) := by
      unfold jsExtractDependencies
      rw [jsExtractDependencies_foldl]
      simp
    refine ⟨hchar, ?_⟩
    rw [hchar, List.length_flatMap]
    simp only [Function.comp_def]
    have hmaps : (List.enumFrom 1 lineMatches).map
        (fun p => (p.2.map
          (fun m => (⟨file, m.1, "import", p.1, m.2⟩ : DependencyInfo))).length)
        = (List.enumFrom 1 lineMatches).map (fun p => p.2.length) := by
      refine List.map_congr_left ?_
      intro p _
      rw [List.length_map]
    rw [hmaps]
    rw [show (fun p : Nat × List (String × Nat) => p.2.length)
        = (List.length ∘ Prod.snd) from rfl]
    rw [← List.map_map, List.enumFrom_map_snd]

/-- Witness for C6 amended at a concrete file: a two-name from-import yields
two edges, and the concrete edge `m.py → typing.List` carries the
statement's source, line and column. -/
theorem import_edges_amended_witness :
    extractDependencies (.other [.importFromStmt (some "typing") ["List", "Dict"] 2 4]) "m.py"
      = (walk (.other [.importFromStmt (some "typing") ["List", "Dict"] 2 4])).flatMap
          (specEdgesOfStatement "m.py") ∧
    (specEdgesOfStatement "m.py" (.importFromStmt (some "typing") ["List", "Dict"] 2 4)).length
      = 2 ∧
    ((⟨"m.py", "typing.List", "import", 2, 4⟩ : DependencyInfo).source = "m.py" ∧
      (⟨"m.py", "typing.List", "import", 2, 4⟩ : DependencyInfo).line = 2 ∧
      (⟨"m.py", "typing.List", "import", 2, 4⟩ : DependencyInfo).column = 4) ∧
    (jsExtractDependencies "f.js" [[("m", 15)]]).length = ([[("m", 15)]].map List.length).sum :=
  ⟨import_edges_amended.1 (.other [.importFromStmt (some "typing") ["List", "Dict"] 2 4]) "m.py",
    (import_edges_amended.2.2.1 "m.py" "typing" ["List", "Dict"] 2 4).1,
    (import_edges_amended.2.2.1 "m.py" "typing" ["List", "Dict"] 2 4).2
      ⟨"m.py", "typing.List", "import", 2, 4⟩ (by decide),
    (import_edges_amended.2.2.2.2 "f.js" [[("m", 15)]]).2⟩

end CodeGraph

namespace CodeGraph

theorem dropBefore_of_mem (node : Node) :
    ∀ path : List Node, node ∈ path → ∃ tl, dropBefore node path = node :: tl := by
  intro path
  induction path with
  | nil => intro h; simp at h
  | cons x rest ih =>
    intro h
    by_cases hx : x = node
    · subst hx
      exact ⟨rest, by simp [dropBefore]⟩
    · rcases List.mem_cons.mp h with h | h
      · exact absurd h.symm hx
      · obtain ⟨tl, htl⟩ := ih h
        exact ⟨tl, by simp [dropBefore, hx, htl]⟩

theorem foldl_cycles_preserved {α : Type} (P : List Node → Prop) (f : DfsState → α → DfsState)
    (hf : ∀ (st : DfsState) (a : α), (∀ c ∈ st.cycles, P c) → ∀ c ∈ (f st a).cycles, P c) :
    ∀ (l : List α) (st : DfsState),
      (∀ c ∈ st.cycles, P c) → ∀ c ∈ (l.foldl f st).cycles, P c := by
  intro l
  induction l with
  | nil => intro st h; simpa using h
  | cons a rest ih => intro st h; exact ih (f st a) (hf st a h)

theorem dfsRun_cycles_preserved (g : Adj) (P : List Node → Prop)
    (hnew : ∀ (node : Node) (path : List Node), node ∈ path →
      P (dropBefore node path ++ [node])) :
    ∀ (fuel : Nat) (node : Node) (path : List Node) (st : DfsState),
      (∀ c ∈ st.cycles, P c) → ∀ c ∈ (dfsRun g fuel node path st).cycles, P c := by
  intro fuel
  induction fuel with
  | zero => intro node path st h; simpa [dfsRun] using h
  | succ n ih =>
    intro node path st h
    unfold dfsRun
    by_cases h1 : node ∈ path
    · simp only [if_pos h1]
      intro c hc
      simp only [List.mem_append, List.mem_singleton] at hc
      rcases hc with hc | hc
      · exact h c hc
      · subst hc
        exact hnew node path h1
    · simp only [if_neg h1]
      by_cases h2 : node ∈ st.visited
      · simp only [if_pos h2]
        exact h
      · simp only [if_neg h2]
        exact foldl_cycles_preserved P _
          (fun st2 nb hst2 => ih nb (path ++ [node]) st2 hst2) _ _ (by simpa using h)

theorem detectCycles_cycles_property (g : Adj) (P : List Node → Prop)
    (hnew : ∀ (node : Node) (path : List Node), node ∈ path →
      P (dropBefore node path ++ [node])) :
    ∀ c ∈ detectCycles g, P c := by
  unfold detectCycles
  refine foldl_cycles_preserved P _ ?_ (g.map Prod.fst) ⟨[], []⟩ (by simp)
  intro st root hst
  by_cases hr : root ∈ st.visited
  · simp only [if_pos hr]
    exact hst
  · simp only [if_neg hr]
    exact dfsRun_cycles_preserved g P hnew _ root [] st hst

/-- Claim C5: every cycle recorded by `detect_cycles` is a closed walk (its
first and last entries coincide — the repeated closing node), and the
`CircularDependency` severity assigned in `analyze_project` is `error`
exactly when that recorded walk, counting the repeated closing node, has
more than 5 entries, and `warning` otherwise. -/
theorem cycle_severity_threshold (g : Adj) (c : List Node) (hc : c ∈ detectCycles g) :
    c ≠ [] ∧ c.head? = c.getLast? ∧
      ((mkCircularDependency c).severity = "error" ↔ 5 < c.length) := by
  have hP : c ≠ [] ∧ c.head? = c.getLast? := by
    refine detectCycles_cycles_property g (fun c => c ≠ [] ∧ c.head? = c.getLast?) ?_ c hc
    intro node path hmem
    obtain ⟨tl, htl⟩ := dropBefore_of_mem node path hmem
    rw [htl]
    constructor
    · simp
    · rw [List.getLast?_concat]
      simp
  refine ⟨hP.1, hP.2, ?_⟩
  unfold mkCircularDependency
  by_cases h5 : 5 < c.length
  · simp [h5]
  · have hne : ("warning" : String) ≠ "error" := by decide
    simp [h5, hne]

/-- Witness for C5 at the triangle graph and its recorded cycle
`[A, B, C, A]`: severity is `warning` since the walk has 4 entries. -/
theorem cycle_severity_threshold_witness :
    (["A", "B", "C", "A"] : List Node) ≠ [] ∧
      (["A", "B", "C", "A"] : List Node).head? = (["A", "B", "C", "A"] : List Node).getLast? ∧
      ((mkCircularDependency ["A", "B", "C", "A"]).severity = "error" ↔
        5 < (["A", "B", "C", "A"] : List Node).length) :=
  cycle_severity_threshold (buildGraph [("A", "B"), ("B", "C"), ("C", "A")]).graph
    ["A", "B", "C", "A"] (by decide)

end CodeGraph

namespace CodeGraph

theorem filter_length_pos_iff_any {α : Type} (p : α → Bool) (l : List α) :
    0 < (l.filter p).length ↔ l.any p = true := by
  rw [List.length_pos, Ne, List.filter_eq_nil_iff, List.any_eq_true]
  push_neg
  simp

theorem sum_pos_iff_exists {l : List Nat} : 0 < l.sum ↔ ∃ x ∈ l, 0 < x := by
  rw [Nat.pos_iff_ne_zero, Ne, List.sum_eq_zero_iff]
  push_neg
  simp [Nat.pos_iff_ne_zero]

theorem foldl_add_map {α : Type} (g : α → Nat) :
    ∀ (l : List α) (acc : Nat), l.foldl (fun a n => a + g n) acc = acc + (l.map g).sum := by
  intro l
  induction l with
  | nil => intro acc; simp
  | cons x rest ih =>
    intro acc
    simp only [List.foldl_cons, List.map_cons, List.sum_cons]
    rw [ih]
    omega

theorem recursiveCallCount_pos_iff (name : String) (isAsync : Bool) (line : Nat)
    (body : List PyNode) :
    0 < recursiveCallCount (.funcDef name isAsync line body) ↔
      (isAsync = false ∧ specCallsItself (.funcDef name isAsync line body) = true) := by
  cases isAsync
  · simp only [recursiveCallCount, if_neg (by simp : ¬(false = true)), specCallsItself]
    rw [filter_length_pos_iff_any]
    simp
  · simp [recursiveCallCount]

theorem loopCount_pos_iff (f : PyNode) :
    0 < loopCount f ↔ specHasLoop f = true := by
  unfold loopCount specHasLoop
  exact filter_length_pos_iff_any isLoopNode (walk f)

theorem loop_nested_sub_iff (n : PyNode) (hn : isLoopNode n = true) :
    0 < loopCount n - 1 ↔ (walkList (loopBodyOf n)).any isLoopNode = true := by
  match n with
  | .forLoop body =>
    unfold loopCount
    rw [show walk (.forLoop body) = .forLoop body :: walkList body from rfl]
    rw [List.filter_cons_of_pos (by rfl)]
    simp only [List.length_cons, Nat.add_sub_cancel, loopBodyOf]
    exact filter_length_pos_iff_any isLoopNode (walkList body)
  | .whileLoop body =>
    unfold loopCount
    rw [show walk (.whileLoop body) = .whileLoop body :: walkList body from rfl]
    rw [List.filter_cons_of_pos (by rfl)]
    simp only [List.length_cons, Nat.add_sub_cancel, loopBodyOf]
    exact filter_length_pos_iff_any isLoopNode (walkList body)
  | .funcDef a b c d => simp [isLoopNode] at hn
  | .classDef a b => simp [isLoopNode] at hn
  | .call a b => simp [isLoopNode] at hn
  | .importStmt a b c => simp [isLoopNode] at hn
  | .importFromStmt a b c d => simp [isLoopNode] at hn
  | .other a => simp [isLoopNode] at hn

theorem specHasNestedLoops_eq (f : PyNode) :
    specHasNestedLoops f =
      (walk f).any (fun n => isLoopNode n && (walkList (loopBodyOf n)).any isLoopNode) := by
  unfold specHasNestedLoops
  congr 1
  funext n
  match n with
  | .forLoop body => simp [isLoopNode, loopBodyOf]
  | .whileLoop body => simp [isLoopNode, loopBodyOf]
  | .funcDef a b c d => simp [isLoopNode, loopBodyOf]
  | .classDef a b => simp [isLoopNode, loopBodyOf]
  | .call a b => simp [isLoopNode, loopBodyOf]
  | .importStmt a b c => simp [isLoopNode, loopBodyOf]
  | .importFromStmt a b c d => simp [isLoopNode, loopBodyOf]
  | .other a => simp [isLoopNode, loopBodyOf]

theorem nestedLoopCount_pos_iff (f : PyNode) :
    0 < nestedLoopCount f ↔ specHasNestedLoops f = true := by
  unfold nestedLoopCount
  rw [foldl_add_map (fun n => loopCount n - 1) ((walk f).filter isLoopNode) 0]
  rw [Nat.zero_add, sum_pos_iff_exists]
  rw [specHasNestedLoops_eq, List.any_eq_true]
  constructor
  · rintro ⟨x, hx, hpos⟩
    obtain ⟨n, hn, rfl⟩ := List.mem_map.mp hx
    have hmem := List.mem_filter.mp hn
    refine ⟨n, hmem.1, ?_⟩
    rw [Bool.and_eq_true]
    exact ⟨hmem.2, (loop_nested_sub_iff n hmem.2).mp hpos⟩
  · rintro ⟨n, hn, hand⟩
    rw [Bool.and_eq_true] at hand
    refine ⟨loopCount n - 1, List.mem_map.mpr ⟨n, List.mem_filter.mpr ⟨hn, hand.1⟩, rfl⟩, ?_⟩
    exact (loop_nested_sub_iff n hand.1).mpr hand.2

end CodeGraph

namespace CodeGraph

theorem estimate_matches_spec (name : String) (isAsync : Bool) (line : Nat)
    (body : List PyNode) :
    estimateComplexity (.funcDef name isAsync line body)
      = specComplexityClass (.funcDef name isAsync line body) := by
  unfold estimateComplexity specComplexityClass
  dsimp only
  by_cases hrec : 0 < recursiveCallCount (.funcDef name isAsync line body)
  · obtain ⟨ha, hs⟩ := (recursiveCallCount_pos_iff name isAsync line body).mp hrec
    rw [if_pos hrec, if_pos (by rw [Bool.and_eq_true, Bool.not_eq_true']; exact ⟨ha, hs⟩)]
  · have hcond : ¬((!isAsync && specCallsItself (.funcDef name isAsync line body)) = true) := by
      intro hc
      rw [Bool.and_eq_true, Bool.not_eq_true'] at hc
      exact hrec ((recursiveCallCount_pos_iff name isAsync line body).mpr hc)
    rw [if_neg hrec, if_neg hcond]
    by_cases hnest : 0 < nestedLoopCount (.funcDef name isAsync line body)
    · rw [if_pos hnest,
        if_pos ((nestedLoopCount_pos_iff (.funcDef name isAsync line body)).mp hnest)]
    · have hcond2 : ¬(specHasNestedLoops (.funcDef name isAsync line body) = true) :=
        fun hc => hnest ((nestedLoopCount_pos_iff (.funcDef name isAsync line body)).mpr hc)
      rw [if_neg hnest, if_neg hcond2]
      by_cases hloop : 0 < loopCount (.funcDef name isAsync line body)
      · rw [if_pos hloop,
          if_pos ((loopCount_pos_iff (.funcDef name isAsync line body)).mp hloop)]
      · have hcond3 : ¬(specHasLoop (.funcDef name isAsync line body) = true) :=
          fun hc => hloop ((loopCount_pos_iff (.funcDef name isAsync line body)).mpr hc)
        rw [if_neg hloop, if_neg hcond3]

theorem analyzeComplexity_foldl (file : String) (nodes : List PyNode) :
    ∀ acc : List ComplexityInfo,
      nodes.foldl
        (fun acc node =>
          match node with
          | .funcDef name isAsync line body =>
            let c := estimateComplexity (.funcDef name isAsync line body)
            acc ++ [⟨name, file, c, line, warningFor c⟩]
          | _ => acc)
        acc
      = acc ++ nodes.flatMap
          (fun n =>
            match n with
            | .funcDef name isAsync line body =>
              [⟨name, file, estimateComplexity (.funcDef name isAsync line body), line,
                warningFor (estimateComplexity (.funcDef name isAsync line body))⟩]
            | _ => []) := by
  induction nodes with
  | nil => intro acc; simp
  | cons node rest ih =>
    intro acc
    simp only [List.foldl_cons, List.flatMap_cons]
    match node with
    | .funcDef name isAsync line body => dsimp only; rw [ih]; simp
    | .classDef a b => dsimp only; rw [ih]; simp
    | .forLoop a => dsimp only; rw [ih]; simp
    | .whileLoop a => dsimp only; rw [ih]; simp
    | .call a b => dsimp only; rw [ih]; simp
    | .importStmt a b c => dsimp only; rw [ih]; simp
    | .importFromStmt a b c d => dsimp only; rw [ih]; simp
    | .other a => dsimp only; rw [ih]; simp

/-- Counterexample for C1 as stated: the asynchronous function
`async def f(): f()` syntactically calls itself by its own name with no
memoization construct, yet `_estimate_complexity` classifies it `O(1)`, not
`O(2^n)` — the `isinstance(func_node, ast.FunctionDef)` guard is false for
`ast.AsyncFunctionDef`, so its recursive calls are never counted. -/
theorem complexity_async_recursion_counterexample :
    specCallsItself (.funcDef "f" true 1 [.call (some "f") []]) = true ∧
      estimateComplexity (.funcDef "f" true 1 [.call (some "f") []]) = "O(1)" ∧
      "O(1)" ≠ "O(2^n)" :=
  ⟨by decide, by decide, by decide⟩

/-- Claim C1 amended: the strict precedence holds with self-recursion
detected only for non-async function definitions.  For every function
definition: the class is `O(2^n)` iff the function is non-async and calls
itself by its own name; otherwise `O(n²)` iff two loops are lexically
nested; otherwise `O(n)` iff a loop is present; otherwise `O(1)`
(`estimate_matches_spec` conjunct).  A warning is attached exactly when the
class is in the high set `{O(n²), O(2^n), O(n!)}`, every attached warning
text is non-empty, and every function definition discovered by the walk —
nested or async included — yields exactly one record carrying the estimated
class and that warning. -/
theorem complexity_precedence_amended :
    (∀ (name : String) (isAsync : Bool) (line : Nat) (body : List PyNode),
      estimateComplexity (.funcDef name isAsync line body)
        = specComplexityClass (.funcDef name isAsync line body)) ∧
    (∀ c : String, (warningFor c).isSome = isHighComplexity c) ∧
    (∀ c w : String, warningFor c = some w → 0 < w.length) ∧
    (∀ (tree : PyNode) (file : String),
      analyzeComplexity tree file
        = (walk tree).flatMap
            (fun n =>
              match n with
              | .funcDef name isAsync line body =>
                [⟨name, file, estimateComplexity (.funcDef name isAsync line body), line,
                  warningFor (estimateComplexity (.funcDef name isAsync line body))⟩]
              | _ => [])) := by
  refine ⟨estimate_matches_spec, ?_, ?_, ?_⟩
  · intro c
    unfold warningFor
    by_cases h : isHighComplexity c = true
    · rw [if_pos h, h]
      rfl
    · rw [if_neg h, Bool.not_eq_true] at *
      rw [h]
      rfl
  · intro c w h
    unfold warningFor at h
    by_cases hc : isHighComplexity c = true
    · rw [if_pos hc, Option.some.injEq] at h
      subst h
      rw [String.length_append]
      have hpos : 0 < ("Consider optimizing - complexity is " : String).length := by decide
      omega
    · rw [if_neg hc] at h
      exact absurd h (by simp)
  · intro tree file
    unfold analyzeComplexity
    rw [analyzeComplexity_foldl]
    simp

/-- Witness for C1 amended: the warning-nonemptiness conjunct applied at the
quadratic class and its concrete warning text. -/
theorem complexity_precedence_amended_witness :
    0 < ("Consider optimizing - complexity is " ++ oN2).length :=
  complexity_precedence_amended.2.2.1 oN2
    ("Consider optimizing - complexity is " ++ oN2) (by decide)

end CodeGraph

namespace CodeGraph

theorem complexityScore_eq_specRank (c : String) : complexityScore c = specRank c := by
  unfold complexityScore specRank specClassTable rankIn
  split_ifs <;> simp_all [rankIn]

theorem scoreToComplexity_eq_specMapBack (s : Int) : scoreToComplexity s = specMapBack s := by
  unfold scoreToComplexity specMapBack specClassTable
  split_ifs <;> simp_all <;> omega

end CodeGraph

namespace CodeGraph

/-- Claim C8: on any failed read/decode/parse (`except Exception` branch)
`parse` returns the all-empty analysis plus a diagnostic, and the aggregator
processes the remaining files exactly as if the failing file contributed
nothing — it is still counted among the scanned files, and the run is never
aborted (the embedding is total by construction). -/
theorem parse_failure_recovery :
    (∀ (file e : String),
      (parsePy file (.error e)).1.dependencies = [] ∧
      (parsePy file (.error e)).1.complexity = [] ∧
      (parsePy file (.error e)).1.functions = [] ∧
      (parsePy file (.error e)).1.imports = [] ∧
      (parsePy file (.error e)).1.classes = [] ∧
      (parsePy file (.error e)).2 = some ("Error parsing " ++ file ++ ": " ++ e)) ∧
    (∀ (st : GraphState) (pre post : List (String × Except String PyNode)) (bad e : String),
      ((analyzeProjectFrom st (pre ++ (bad, .error e) :: post)).2.dependencies
          = (analyzeProjectFrom st (pre ++ post)).2.dependencies) ∧
      ((analyzeProjectFrom st (pre ++ (bad, .error e) :: post)).2.complexity
          = (analyzeProjectFrom st (pre ++ post)).2.complexity) ∧
      ((analyzeProjectFrom st (pre ++ (bad, .error e) :: post)).2.cycles
          = (analyzeProjectFrom st (pre ++ post)).2.cycles) ∧
      ((analyzeProjectFrom st (pre ++ (bad, .error e) :: post)).2.metrics.totalFiles
          = pre.length + post.length + 1)) := by
  constructor
  · intro file e
    exact ⟨rfl, rfl, rfl, rfl, rfl, rfl⟩
  · intro st pre post bad e
    refine ⟨?_, ?_, ?_, ?_⟩ <;>
      simp [analyzeProjectFrom, parsePy, emptyFileAnalysis, List.flatMap_append,
        List.length_append] <;> omega

/-- Claim C9 is violated by the code: `CodeGraphAnalyzer.__init__` creates
one `DependencyGraphAnalyzer` which `analyze_project` reuses and never
resets, so edges inserted by an earlier call leak into later calls.
Concretely: after analyzing a two-file project whose imports form the cycle
`a.py → b.py → a.py`, a second `analyze_project` call on an empty tree still
reports one circular dependency, while a freshly constructed analyzer on the
same empty tree reports zero. -/
theorem analyze_project_stale_graph_bug :
    (analyzeProjectFrom
        (analyzeProjectFrom emptyGraphState
          [("a.py", .ok (.other [.importStmt ["b.py"] 1 0])),
           ("b.py", .ok (.other [.importStmt ["a.py"] 1 0]))]).1
        []).2.metrics.circularDependencies = 1 ∧
      (analyzeProjectFrom emptyGraphState []).2.metrics.circularDependencies = 0 :=
  ⟨by decide, by decide⟩

end CodeGraph

namespace CodeGraph

theorem pythonRound_intCast (n : ℤ) : pythonRound ((n : ℚ)) = n := by
  unfold pythonRound
  rw [Int.fract_intCast]
  norm_num

theorem pythonRound_sub_le (q : ℚ) : |(pythonRound q : ℚ) - q| ≤ 1 / 2 := by
  have hd : (⌊q⌋ : ℚ) = q - Int.fract q := by
    unfold Int.fract
    ring
  have h0 : 0 ≤ Int.fract q := Int.fract_nonneg q
  have h1 : Int.fract q < 1 := Int.fract_lt_one q
  unfold pythonRound
  split_ifs with hb1 hb2 hb3 <;> rw [abs_le] <;> push_cast <;> constructor <;> linarith

theorem pythonRound_eq_of_between (q : ℚ) (k : ℤ) (h1 : (k : ℚ) - 1/2 < q)
    (h2 : q < (k : ℚ) + 1/2) : pythonRound q = k := by
  have hfq : Int.fract q = q - ⌊q⌋ := rfl
  rcases le_or_lt (k : ℚ) q with hk | hk
  · have hfl : ⌊q⌋ = k := by
      rw [Int.floor_eq_iff]
      constructor
      · exact hk
      · push_cast
        linarith
    have hfr : Int.fract q < 1/2 := by
      rw [hfq, hfl]
      linarith
    unfold pythonRound
    rw [if_pos hfr, hfl]
  · have hfl : ⌊q⌋ = k - 1 := by
      rw [Int.floor_eq_iff]
      constructor
      · push_cast
        linarith
      · push_cast
        linarith
    have hfr : 1/2 < Int.fract q := by
      rw [hfq, hfl]
      push_cast
      linarith
    unfold pythonRound
    rw [if_neg (by linarith), if_pos hfr, hfl]
    omega

theorem log2_eq_of (q : ℚ) (a : ℤ) (hq : 0 < q) (h1 : (2:ℚ) ^ a ≤ q)
    (h2 : q < (2:ℚ) ^ (a + 1)) : Int.log 2 q = a := by
  have hle : Int.log 2 q ≤ a := by
    by_contra hlt
    push_neg at hlt
    have hstep : (2:ℚ) ^ (a + 1) ≤ (2:ℚ) ^ (Int.log 2 q) :=
      zpow_le_zpow_right₀ (by norm_num) (by omega)
    have := le_trans hstep (Int.zpow_log_le_self one_lt_two hq)
    linarith
  have hge : a ≤ Int.log 2 q := by
    by_contra hlt
    push_neg at hlt
    have hstep : (2:ℚ) ^ (Int.log 2 q + 1) ≤ (2:ℚ) ^ a :=
      zpow_le_zpow_right₀ (by norm_num) (by omega)
    have := lt_of_lt_of_le (Int.lt_zpow_succ_log_self one_lt_two q) hstep
    linarith
  omega

theorem log2_bounds (q : ℚ) (h1 : 1 ≤ q) (h8 : q < 8) :
    0 ≤ Int.log 2 q ∧ Int.log 2 q ≤ 2 := by
  have hq : 0 < q := by linarith
  constructor
  · rw [Int.log_of_one_le_right 2 h1]
    exact Int.natCast_nonneg _
  · by_contra hlt
    push_neg at hlt
    have hstep : (2:ℚ) ^ (3:ℤ) ≤ (2:ℚ) ^ (Int.log 2 q) :=
      zpow_le_zpow_right₀ (by norm_num) (by omega)
    have hself := Int.zpow_log_le_self (b := 2) one_lt_two hq
    norm_cast at hself
    have h8' : ((2:ℚ) ^ (3:ℤ)) = 8 := by norm_num
    linarith

theorem floatOfRat_pos_formula (q : ℚ) (hq : 0 < q) :
    floatOfRat q =
      (pythonRound (q * (2:ℚ) ^ ((52:ℤ) - Int.log 2 q)) : ℚ) *
        (2:ℚ) ^ (Int.log 2 q - (52:ℤ)) := by
  unfold floatOfRat
  rw [if_neg (by linarith), if_pos hq]

theorem floatOfRat_error (q : ℚ) (h1 : 1 ≤ q) (h8 : q < 8) :
    |floatOfRat q - q| ≤ (2:ℚ) ^ (-(51:ℤ)) := by
  obtain ⟨he0, he2⟩ := log2_bounds q h1 h8
  have hq : 0 < q := by linarith
  rw [floatOfRat_pos_formula q hq]
  set e := Int.log 2 q with hedef
  set s := q * (2:ℚ) ^ ((52:ℤ) - e) with hsdef
  have h2ne : (2:ℚ) ≠ 0 := by norm_num
  have hqs : q = s * (2:ℚ) ^ (e - (52:ℤ)) := by
    rw [hsdef, mul_assoc, ← zpow_add₀ h2ne]
    norm_num
  have herr : |(pythonRound s : ℚ) - s| ≤ 1/2 := pythonRound_sub_le s
  have hpow : (0:ℚ) < (2:ℚ) ^ (e - (52:ℤ)) := zpow_pos (by norm_num) _
  have hstep1 : |(pythonRound s : ℚ) * (2:ℚ) ^ (e - (52:ℤ)) - q|
      = |(pythonRound s : ℚ) - s| * (2:ℚ) ^ (e - (52:ℤ)) := by
    rw [hqs, ← sub_mul, abs_mul, abs_of_pos hpow]
  rw [hstep1]
  have hmon : (2:ℚ) ^ (e - (52:ℤ)) ≤ (2:ℚ) ^ (-(50:ℤ)) :=
    zpow_le_zpow_right₀ (by norm_num) (by omega)
  have habs : (0:ℚ) ≤ |(pythonRound s : ℚ) - s| := abs_nonneg _
  calc |(pythonRound s : ℚ) - s| * (2:ℚ) ^ (e - (52:ℤ))
      ≤ (1/2) * (2:ℚ) ^ (-(50:ℤ)) := by
        apply mul_le_mul herr hmon (le_of_lt hpow) (by norm_num)
    _ = (2:ℚ) ^ (-(51:ℤ)) := by
        rw [show ((1:ℚ)/2) = (2:ℚ) ^ (-(1:ℤ)) by norm_num, ← zpow_add₀ h2ne]
        norm_num

theorem floatOfRat_eq_self_of_two_mul_int (q : ℚ) (h1 : 1 ≤ q) (h8 : q < 8) (m : ℤ)
    (hm : (m : ℚ) = 2 * q) : floatOfRat q = q := by
  obtain ⟨he0, he2⟩ := log2_bounds q h1 h8
  have hq : 0 < q := by linarith
  rw [floatOfRat_pos_formula q hq]
  set e := Int.log 2 q with hedef
  have h2ne : (2:ℚ) ≠ 0 := by norm_num
  have hk : ((((51:ℤ) - e).toNat : ℤ)) = (51:ℤ) - e := Int.toNat_of_nonneg (by omega)
  have hs : q * (2:ℚ) ^ ((52:ℤ) - e) = ((m * 2 ^ ((51:ℤ) - e).toNat : ℤ) : ℚ) := by
    push_cast
    rw [← zpow_natCast (2:ℚ) (((51:ℤ) - e).toNat), hk, hm]
    rw [show ((52:ℤ) - e) = 1 + ((51:ℤ) - e) by ring, zpow_add₀ h2ne, zpow_one]
    ring
  rw [hs, pythonRound_intCast]
  rw [← hs, mul_assoc, ← zpow_add₀ h2ne]
  norm_num

theorem pythonRound_floatOfRat_eq (N D : ℕ) (hD : 0 < D) (hD50 : D < 2 ^ 50)
    (hlow : (D : ℚ) ≤ (N : ℚ)) (hhigh : (N : ℚ) ≤ 7 * (D : ℚ)) :
    pythonRound (floatOfRat ((N : ℚ) / (D : ℚ))) = pythonRound ((N : ℚ) / (D : ℚ)) := by
  set q : ℚ := (N : ℚ) / (D : ℚ) with hqdef
  have hDQ : (0:ℚ) < (D : ℚ) := by exact_mod_cast hD
  have hq1 : 1 ≤ q := by
    rw [hqdef, le_div_iff hDQ]
    linarith
  have hq7 : q ≤ 7 := by
    rw [hqdef, div_le_iff hDQ]
    linarith
  have hq8 : q < 8 := by linarith
  by_cases hh : ∃ m : ℤ, (m : ℚ) = 2 * q
  · obtain ⟨m, hm⟩ := hh
    rw [floatOfRat_eq_self_of_two_mul_int q hq1 hq8 m hm]
  · set k := pythonRound q with hkdef
    have hfq : Int.fract q = q - ⌊q⌋ := rfl
    have hfr0 : 0 ≤ Int.fract q := Int.fract_nonneg q
    have hfr1 : Int.fract q < 1 := Int.fract_lt_one q
    have hne : Int.fract q ≠ 1/2 := by
      intro heq
      apply hh
      refine ⟨2 * ⌊q⌋ + 1, ?_⟩
      push_cast
      rw [hfq] at heq
      linarith
    have hk1 : (k:ℚ) - 1/2 < q ∧ q < (k:ℚ) + 1/2 := by
      rw [hkdef]
      unfold pythonRound
      split_ifs with hb1 hb2 hb3 <;> push_cast <;> constructor <;>
        first
          | linarith [hfq]
          | (exfalso; apply hne; linarith)
    -- integer-gap bounds: q keeps distance at least 1/(2D) from k - 1/2 and k + 1/2
    have hgap_low : (k:ℚ) - 1/2 + 1/(2*(D:ℚ)) ≤ q := by
      have hnum : (0:ℚ) < (2*(N:ℚ) - (2*(k:ℚ) - 1)*(D:ℚ)) := by
        have hlt := hk1.1
        rw [hqdef, lt_div_iff hDQ] at hlt
        nlinarith
      have hint : (1:ℚ) ≤ 2*(N:ℚ) - (2*(k:ℚ) - 1)*(D:ℚ) := by
        have hz : (0:ℤ) < 2*(N:ℤ) - (2*k - 1)*(D:ℤ) := by
          have : ((2*(N:ℤ) - (2*k - 1)*(D:ℤ) : ℤ) : ℚ) = 2*(N:ℚ) - (2*(k:ℚ) - 1)*(D:ℚ) := by
            push_cast
            ring
          by_contra hle
          push_neg at hle
          have : ((2*(N:ℤ) - (2*k - 1)*(D:ℤ) : ℤ) : ℚ) ≤ 0 := by exact_mod_cast hle
          linarith [this, hnum]
        have : (1:ℤ) ≤ 2*(N:ℤ) - (2*k - 1)*(D:ℤ) := hz
        calc (1:ℚ) = ((1:ℤ):ℚ) := by norm_num
          _ ≤ ((2*(N:ℤ) - (2*k - 1)*(D:ℤ) : ℤ) : ℚ) := by exact_mod_cast this
          _ = 2*(N:ℚ) - (2*(k:ℚ) - 1)*(D:ℚ) := by push_cast; ring
      rw [hqdef, ← sub_nonneg]
      have hsplit : (N:ℚ)/(D:ℚ) - ((k:ℚ) - 1/2 + 1/(2*(D:ℚ)))
          = (2*(N:ℚ) - (2*(k:ℚ) - 1)*(D:ℚ) - 1)/(2*(D:ℚ)) := by
        field_simp
        ring
      rw [hsplit]
      apply div_nonneg
      · linarith
      · linarith
    have hgap_high : q ≤ (k:ℚ) + 1/2 - 1/(2*(D:ℚ)) := by
      have hnum : (0:ℚ) < ((2*(k:ℚ) + 1)*(D:ℚ) - 2*(N:ℚ)) := by
        have hlt := hk1.2
        rw [hqdef, div_lt_iff hDQ] at hlt
        nlinarith
      have hint : (1:ℚ) ≤ (2*(k:ℚ) + 1)*(D:ℚ) - 2*(N:ℚ) := by
        have hz : (0:ℤ) < (2*k + 1)*(D:ℤ) - 2*(N:ℤ) := by
          by_contra hle
          push_neg at hle
          have : (((2*k + 1)*(D:ℤ) - 2*(N:ℤ) : ℤ) : ℚ) ≤ 0 := by exact_mod_cast hle
          have hcast : (((2*k + 1)*(D:ℤ) - 2*(N:ℤ) : ℤ) : ℚ)
              = (2*(k:ℚ) + 1)*(D:ℚ) - 2*(N:ℚ) := by push_cast; ring
          linarith [hcast ▸ this]
        have h1z : (1:ℤ) ≤ (2*k + 1)*(D:ℤ) - 2*(N:ℤ) := hz
        calc (1:ℚ) = ((1:ℤ):ℚ) := by norm_num
          _ ≤ (((2*k + 1)*(D:ℤ) - 2*(N:ℤ) : ℤ) : ℚ) := by exact_mod_cast h1z
          _ = (2*(k:ℚ) + 1)*(D:ℚ) - 2*(N:ℚ) := by push_cast; ring
      rw [hqdef, ← sub_nonneg]
      have hsplit : ((k:ℚ) + 1/2 - 1/(2*(D:ℚ))) - (N:ℚ)/(D:ℚ)
          = ((2*(k:ℚ) + 1)*(D:ℚ) - 2*(N:ℚ) - 1)/(2*(D:ℚ)) := by
        field_simp
        ring
      rw [hsplit]
      apply div_nonneg
      · linarith
      · linarith
    -- the float error is smaller than the gap
    have herr := floatOfRat_error q hq1 hq8
    have herrval : (2:ℚ) ^ (-(51:ℤ)) = 1 / 2 ^ 51 := by
      rw [zpow_neg]
      norm_num
    have hgapval : (2:ℚ) ^ (-(51:ℤ)) < 1/(2*(D:ℚ)) := by
      rw [herrval]
      rw [div_lt_div_iff (by positivity) (by positivity)]
      have : (D:ℚ) < 2 ^ 50 := by exact_mod_cast hD50
      nlinarith
    have habs := abs_le.mp herr
    obtain ⟨hab1, hab2⟩ := habs
    rw [herrval] at hab1 hab2 hgapval
    have hfinal : pythonRound (floatOfRat q) = k := by
      apply pythonRound_eq_of_between
      · linarith
      · linarith
    rw [hfinal, hkdef]

theorem pythonRound_five_halves : pythonRound ((5:ℚ)/2) = 2 := by
  have hfl52 : ⌊(5:ℚ)/2⌋ = 2 := by norm_num
  have hfr : Int.fract ((5:ℚ)/2) = 1/2 := by
    unfold Int.fract
    rw [hfl52]
    norm_num
  unfold pythonRound
  rw [hfr, hfl52]
  norm_num

theorem counterexample_mean_log : Int.log 2 (((5 * 2 ^ 50 + 3) / (2 ^ 51 + 1) : ℚ)) = 1 := by
  have hDpos : (0:ℚ) < 2 ^ 51 + 1 := by positivity
  have hq : (0:ℚ) < (5 * 2 ^ 50 + 3) / (2 ^ 51 + 1) := by positivity
  apply log2_eq_of _ 1 hq
  · rw [zpow_one, le_div_iff hDpos]
    norm_num
  · rw [show ((1:ℤ) + 1) = 2 by norm_num]
    rw [show ((2:ℚ) ^ (2:ℤ)) = 4 by norm_num]
    rw [div_lt_iff hDpos]
    norm_num

theorem counterexample_scaled_round :
    pythonRound (((5 * 2 ^ 50 + 3) / (2 ^ 51 + 1) : ℚ) * (2:ℚ) ^ (51:ℤ)) = 5 * 2 ^ 50 := by
  have hDpos : (0:ℚ) < 2 ^ 51 + 1 := by positivity
  have h51 : ((2:ℚ) ^ (51:ℤ)) = 2 ^ 51 := by norm_num
  rw [h51]
  apply pythonRound_eq_of_between
  · push_cast
    rw [div_mul_eq_mul_div, lt_div_iff hDpos]
    norm_num
  · push_cast
    rw [div_mul_eq_mul_div, div_lt_iff hDpos]
    norm_num

theorem counterexample_float_quotient : floatOfRat (((5 * 2 ^ 50 + 3) / (2 ^ 51 + 1) : ℚ)) = 5 / 2 := by
  have hq : (0:ℚ) < (5 * 2 ^ 50 + 3) / (2 ^ 51 + 1) := by positivity
  rw [floatOfRat_pos_formula _ hq, counterexample_mean_log]
  rw [show ((52:ℤ) - 1) = 51 by norm_num, show ((1:ℤ) - 52) = -51 by norm_num]
  rw [counterexample_scaled_round]
  push_cast
  rw [zpow_neg, show ((2:ℚ) ^ (51:ℤ)) = 2 ^ 51 by norm_num, ← div_eq_mul_inv]
  norm_num

theorem counterexample_list_length :
    (List.replicate (2 ^ 50) (⟨"f", "x", "O(log n)", 1, none⟩ : ComplexityInfo) ++
      List.replicate (2 ^ 50 + 1) (⟨"g", "x", "O(n)", 1, none⟩ : ComplexityInfo)).length = 2 ^ 51 + 1 := by
  rw [List.length_append, List.length_replicate, List.length_replicate]
  norm_num

theorem counterexample_list_ne_nil :
    (List.replicate (2 ^ 50) (⟨"f", "x", "O(log n)", 1, none⟩ : ComplexityInfo) ++
      List.replicate (2 ^ 50 + 1) (⟨"g", "x", "O(n)", 1, none⟩ : ComplexityInfo)) ≠ [] := by
  intro hnil
  have hlen0 := congrArg List.length hnil
  rw [counterexample_list_length, List.length_nil] at hlen0
  norm_num at hlen0

theorem counterexample_score_sum :
    ((List.replicate (2 ^ 50) (⟨"f", "x", "O(log n)", 1, none⟩ : ComplexityInfo) ++
      List.replicate (2 ^ 50 + 1) (⟨"g", "x", "O(n)", 1, none⟩ : ComplexityInfo)).map
        (fun c => complexityScore c.complexity)).sum = 5 * 2 ^ 50 + 3 := by
  have e2 : complexityScore "O(log n)" = 2 := by decide
  have e3 : complexityScore "O(n)" = 3 := by decide
  rw [List.map_append, List.map_replicate, List.map_replicate, List.sum_append,
    List.sum_replicate, List.sum_replicate, e2, e3, smul_eq_mul, smul_eq_mul]
  norm_num

theorem calculateAverageComplexity_of_ne_nil (l : List ComplexityInfo) (h : l ≠ []) :
    calculateAverageComplexity l =
      scoreToComplexity (pythonRound (floatOfRat
        ((((l.map (fun c => complexityScore c.complexity)).sum : ℕ) : ℚ) / (l.length : ℚ)))) := by
  match l with
  | [] => exact absurd rfl h
  | c :: rest => rfl

theorem complexityScore_bounds (c : String) :
    1 ≤ complexityScore c ∧ complexityScore c ≤ 7 := by
  unfold complexityScore
  split_ifs <;> omega

theorem score_sum_bounds (l : List ComplexityInfo) :
    l.length ≤ (l.map (fun c => complexityScore c.complexity)).sum ∧
      (l.map (fun c => complexityScore c.complexity)).sum ≤ 7 * l.length := by
  constructor
  · have h := List.card_nsmul_le_sum (l.map (fun c => complexityScore c.complexity)) 1
      (by
        intro x hx
        obtain ⟨r, -, rfl⟩ := List.mem_map.mp hx
        exact (complexityScore_bounds _).1)
    simpa [smul_eq_mul] using h
  · have h := List.sum_le_card_nsmul (l.map (fun c => complexityScore c.complexity)) 7
      (by
        intro x hx
        obtain ⟨r, -, rfl⟩ := List.mem_map.mp hx
        exact (complexityScore_bounds _).2)
    simpa [smul_eq_mul, Nat.mul_comm] using h

/-- Claim C4 amended: the code's average equals the spec's rounded exact
mean — the class label mapped back from the half-to-even rounding of the
mean ordinal rank (1..7, unrecognized labels ranked 3) — for every
non-empty list of fewer than `2^50` records; in that regime the binary64
quotient `total_score / len` is close enough to the exact mean that both
round alike.  In particular one `O(1)` record and one `O(n)` record average
to rank 2, giving `O(log n)`.  (Beyond that length the two can disagree —
see the counterexample.) -/
theorem average_complexity_amended :
    (∀ l : List ComplexityInfo, l ≠ [] → l.length < 2 ^ 50 →
      calculateAverageComplexity l = specAverageComplexity l) ∧
    calculateAverageComplexity
        [⟨"f", "a.py", "O(1)", 1, none⟩, ⟨"g", "a.py", "O(n)", 2, none⟩] = "O(log n)" := by
  have hmain : ∀ l : List ComplexityInfo, l ≠ [] → l.length < 2 ^ 50 →
      calculateAverageComplexity l = specAverageComplexity l := by
    intro l hne hlen
    rw [calculateAverageComplexity_of_ne_nil l hne]
    unfold specAverageComplexity
    obtain ⟨hs1, hs7⟩ := score_sum_bounds l
    have hD : 0 < l.length := List.length_pos.mpr hne
    have hround := pythonRound_floatOfRat_eq
      ((l.map (fun c => complexityScore c.complexity)).sum) l.length hD hlen
      (by exact_mod_cast hs1) (by exact_mod_cast hs7)
    rw [hround, scoreToComplexity_eq_specMapBack]
    have hnum : ((((l.map (fun c => complexityScore c.complexity)).sum : ℕ)) : ℚ)
        = (l.map (fun r => ((specRank r.complexity : ℚ)))).sum := by
      rw [Nat.cast_list_sum, List.map_map]
      refine congrArg List.sum (List.map_congr_left ?_)
      intro r _
      simp [complexityScore_eq_specRank]
    rw [hnum]
  refine ⟨hmain, ?_⟩
  rw [hmain _ (by decide) (by decide)]
  have h1 : specRank "O(1)" = 1 := by decide
  have h2 : specRank "O(n)" = 3 := by decide
  unfold specAverageComplexity
  simp only [List.map, List.sum_cons, List.sum_nil, List.length, h1, h2]
  norm_num
  have hr : pythonRound (2:ℚ) = 2 := by
    have := pythonRound_intCast 2
    norm_num at this
    exact this
  rw [hr]
  decide

/-- Witness for C4 amended at a concrete short non-empty list. -/
theorem average_complexity_amended_witness :
    calculateAverageComplexity [⟨"f", "a.py", "O(1)", 1, none⟩, ⟨"g", "a.py", "O(n)", 2, none⟩]
      = specAverageComplexity
          [⟨"f", "a.py", "O(1)", 1, none⟩, ⟨"g", "a.py", "O(n)", 2, none⟩] :=
  average_complexity_amended.1
    [⟨"f", "a.py", "O(1)", 1, none⟩, ⟨"g", "a.py", "O(n)", 2, none⟩] (by decide) (by decide)

end CodeGraph

namespace CodeGraph

/-- Counterexample for C4 as stated: the claim quantifies over every
non-empty record list, but for `2^50` records of class `O(log n)` (rank 2)
together with `2^50 + 1` records of class `O(n)` (rank 3) the exact mean
rank is `(5 * 2^50 + 3) / (2^51 + 1) = 5/2 + 1/(2^52 + 2)`, strictly above
the tie, so the claimed rounding of the exact mean gives rank 3 and `O(n)` —
while the program divides in binary64, where the quotient is correctly
rounded to exactly `2.5`, `round(2.5) = 2` by ties-to-even, and the result
is `O(log n)`. -/
theorem average_complexity_counterexample :
    calculateAverageComplexity
        (List.replicate (2 ^ 50) (⟨"f", "x", "O(log n)", 1, none⟩ : ComplexityInfo) ++
          List.replicate (2 ^ 50 + 1) (⟨"g", "x", "O(n)", 1, none⟩ : ComplexityInfo))
        = "O(log n)" ∧
    specAverageComplexity
        (List.replicate (2 ^ 50) (⟨"f", "x", "O(log n)", 1, none⟩ : ComplexityInfo) ++
          List.replicate (2 ^ 50 + 1) (⟨"g", "x", "O(n)", 1, none⟩ : ComplexityInfo))
        = "O(n)" ∧
    ("O(log n)" : String) ≠ "O(n)" := by
  have hDpos : (0:ℚ) < 2 ^ 51 + 1 := by positivity
  have hN : (5629499534213123 : ℚ) = 5 * 2 ^ 50 + 3 := by norm_num
  have hD : (2251799813685249 : ℚ) = 2 ^ 51 + 1 := by norm_num
  refine ⟨?_, ?_, by decide⟩
  · rw [calculateAverageComplexity_of_ne_nil _ counterexample_list_ne_nil,
      counterexample_score_sum, counterexample_list_length]
    push_cast
    rw [hN, hD, counterexample_float_quotient, pythonRound_five_halves]
    decide
  · unfold specAverageComplexity
    have e2 : specRank "O(log n)" = 2 := by decide
    have e3 : specRank "O(n)" = 3 := by decide
    have hsumQ : ((List.replicate (2 ^ 50) (⟨"f", "x", "O(log n)", 1, none⟩ : ComplexityInfo) ++
        List.replicate (2 ^ 50 + 1) (⟨"g", "x", "O(n)", 1, none⟩ : ComplexityInfo)).map
          (fun r => ((specRank r.complexity : ℚ)))).sum = 5 * 2 ^ 50 + 3 := by
      rw [List.map_append, List.map_replicate, List.map_replicate, List.sum_append,
        List.sum_replicate, List.sum_replicate, e2, e3, nsmul_eq_mul, nsmul_eq_mul]
      push_cast
      norm_num
    rw [hsumQ, counterexample_list_length]
    push_cast
    have hr3 : pythonRound (((5 * 2 ^ 50 + 3) / (2 ^ 51 + 1) : ℚ)) = 3 := by
      apply pythonRound_eq_of_between
      · push_cast
        rw [lt_div_iff hDpos]
        norm_num
      · push_cast
        rw [div_lt_iff hDpos]
        norm_num
    rw [hD, hr3]
    decide

end CodeGraph
